import Mathlib

/-!
Verification of the numeric computation kernel of the math-utils JavaScript
library (src/index.js): statistics routines, number-theory routines and the
matrix kernel.  Functions are shallowly embedded: JavaScript numbers are
modelled exactly (integers as Int/Nat, general numbers as rationals, with an
explicit value type for the non-finite values NaN / Infinity / undefined that
JavaScript arithmetic can produce), thrown JavaScript exceptions are modelled
with Except, and loops are modelled by structural or well-founded recursion
mirroring the loop bounds of the source.
-/

namespace MathUtils

/-- Kinds of JavaScript exceptions the library can raise at runtime.
The source throws plain Error objects; the spec's taxonomy maps the message
"Factorial is undefined for negative numbers" to DomainError, the matrix
dimension messages to DimensionMismatchError, and "Cannot divide by zero" to
ZeroDivisionError.  `typeError` models the host TypeError raised when the code
reads a property (such as `.length`) of `undefined`. -/
inductive JsErr where
  | domainError
  | dimensionMismatch
  | zeroDivisionError
  | typeError
deriving DecidableEq

/-- Values a JavaScript numeric expression of this library can take: a finite
number (modelled exactly as a rational), NaN, positive/negative Infinity, or
the value `undefined` (read from a missing array slot). -/
inductive JsVal where
  | num (q : ℚ)
  | nan
  | undefined
  | inf
  | ninf
deriving DecidableEq

/-- JavaScript addition on the value model: finite + finite is exact; any
operand that is NaN or undefined gives NaN; Infinities follow IEEE rules. -/
def jvAdd : JsVal → JsVal → JsVal
  | .num a, .num b => .num (a + b)
  | .num _, .inf => .inf
  | .inf, .num _ => .inf
  | .num _, .ninf => .ninf
  | .ninf, .num _ => .ninf
  | .inf, .inf => .inf
  | .ninf, .ninf => .ninf
  | _, _ => .nan

/-- JavaScript multiplication on the value model. -/
def jvMul : JsVal → JsVal → JsVal
  | .num a, .num b => .num (a * b)
  | .num a, .inf => if a = 0 then .nan else if 0 < a then .inf else .ninf
  | .inf, .num a => if a = 0 then .nan else if 0 < a then .inf else .ninf
  | .num a, .ninf => if a = 0 then .nan else if 0 < a then .ninf else .inf
  | .ninf, .num a => if a = 0 then .nan else if 0 < a then .ninf else .inf
  | .inf, .inf => .inf
  | .ninf, .ninf => .inf
  | .inf, .ninf => .ninf
  | .ninf, .inf => .ninf
  | _, _ => .nan

/-- JavaScript division `x / y` for finite operands: division by zero yields
NaN (for 0/0) or a signed Infinity, never an exception. -/
def jsDiv (x y : ℚ) : JsVal :=
  if y = 0 then
    if x = 0 then .nan else if 0 < x then .inf else .ninf
  else .num (x / y)

/-- Whether an Except-modelled call threw an exception. -/
def isError {α : Type} : Except JsErr α → Bool
  | .error _ => true
  | .ok _ => false

namespace NumberTheory

/-- Embedding of NumberTheory.gcd:
`gcd(a, b) { return b === 0 ? a : this.gcd(b, a % b); }`.
JavaScript `%` on integers is the truncated remainder, `Int.tmod`. -/
def gcd (a b : Int) : Int :=
  if h : b = 0 then a else gcd b (Int.tmod a b)
termination_by b.natAbs
decreasing_by
  have habs : (Int.tmod a b).natAbs = a.natAbs % b.natAbs := by
    cases a <;> cases b <;> simp only [Int.tmod, Int.natAbs_neg] <;> rfl
  have hb : 0 < b.natAbs := Int.natAbs_pos.mpr h
  rw [habs]
  exact Nat.mod_lt _ hb

/-- Fuel-indexed unfolding of the gcd recursion, used to state termination:
`gcdFuel f a b` runs at most `f` recursive steps and returns `none` if the
base case `b = 0` was not reached within that many steps. -/
def gcdFuel : Nat → Int → Int → Option Int
  | 0, _, _ => none
  | fuel + 1, a, b => if b = 0 then some a else gcdFuel fuel b (Int.tmod a b)

/-- Embedding of NumberTheory.lcm:
`lcm(a, b) { return Math.abs(a * b) / this.gcd(a, b); }`.
The body contains no throw and JavaScript `/` never throws, so the function
always returns (`Except.ok`); division by a zero gcd yields NaN or Infinity
per `jsDiv`. -/
def lcm (a b : Int) : Except JsErr JsVal :=
  .ok (jsDiv ((a * b).natAbs : ℚ) ((gcd a b : Int) : ℚ))

/-- Embedding of NumberTheory.factorial:
`if (n < 0) throw ...; if (n === 0 || n === 1) return 1; return n * this.factorial(n - 1);`. -/
def factorial (n : Int) : Except JsErr Int :=
  if _h : n < 0 then .error .domainError
  else if _h2 : n = 0 ∨ n = 1 then .ok 1
  else do
    let r ← factorial (n - 1)
    return n * r
termination_by n.toNat
decreasing_by
  omega

/-- Embedding of the trial-division loop of NumberTheory.isPrime:
`for (let i = 5; i * i <= n; i += 6) { if (n % i === 0 || n % (i + 2) === 0) return false; }`. -/
def isPrimeLoop (n : Nat) (i : Nat) : Bool :=
  if h : i * i ≤ n then
    if n % i = 0 ∨ n % (i + 2) = 0 then false
    else isPrimeLoop n (i + 6)
  else true
termination_by n + 1 - i
decreasing_by
  rcases Nat.eq_zero_or_pos i with h0 | h1
  · omega
  · have : i ≤ i * i := Nat.le_mul_of_pos_left i h1
    omega

/-- Embedding of NumberTheory.isPrime on the natural numbers (the claims only
concern the range 0..10000):
false for n <= 1, true for n <= 3, false if divisible by 2 or 3, otherwise
the 6k plus/minus 1 trial-division loop starting at 5. -/
def isPrime (n : Nat) : Bool :=
  if n ≤ 1 then false
  else if n ≤ 3 then true
  else if n % 2 = 0 ∨ n % 3 = 0 then false
  else isPrimeLoop n 5

/-- Modelled from the spec: the naive reference the spec cross-checks against,
"trial division by all integers 2..sqrt(n)": n is prime iff n >= 2 and no m
with 2 <= m <= sqrt n divides n. -/
def naiveIsPrime (n : Nat) : Bool :=
  if n ≤ 1 then false
  else (List.range' 2 (n.sqrt - 1)).all fun m => decide (¬ n % m = 0)

end NumberTheory

namespace Statistics

/-- Embedding of BasicMath.sum, `numbers.reduce((acc, num) => acc + num, 0)`,
as used by Statistics.mean on a finite numeric sequence. -/
def sumList (xs : List ℚ) : ℚ := xs.foldl (· + ·) 0

/-- Embedding of Statistics.mean:
`if (numbers.length === 0) return 0; return BasicMath.sum(...numbers) / numbers.length;`. -/
def mean (xs : List ℚ) : ℚ :=
  if xs.length = 0 then 0 else sumList xs / (xs.length : ℚ)

/-- The population variance accumulated by Statistics.standardDeviation:
`numbers.reduce((acc, num) => acc + Math.pow(num - mean, 2), 0) / numbers.length`. -/
def variance (xs : List ℚ) : ℚ :=
  xs.foldl (fun acc num => acc + (num - mean xs) ^ 2) 0 / (xs.length : ℚ)

/-- Embedding of Statistics.standardDeviation:
`if (numbers.length === 0) return 0;` then the square root of the population
variance.  `Math.sqrt` is modelled by the real square root. -/
noncomputable def standardDeviation (xs : List ℚ) : ℝ :=
  if xs.length = 0 then 0 else Real.sqrt ((variance xs : ℚ) : ℝ)

/-- Whether the decimal string form of the number v is a JavaScript array
index: object property keys that are canonical non-negative integers below
2^32 - 1 are enumerated first, in ascending numeric order, by Object.keys. -/
def isArrayIndex (v : ℚ) : Bool :=
  decide (v.den = 1 ∧ 0 ≤ v.num ∧ v.num < 4294967295)

/-- Distinct values of the input in first-encounter order: the insertion
order of the keys of the frequency object built by
`numbers.forEach(num => { frequency[num] = (frequency[num] || 0) + 1; })`. -/
def keysInOrder (xs : List ℚ) : List ℚ :=
  xs.foldl (fun acc x => if x ∈ acc then acc else acc ++ [x]) []

/-- Key enumeration order of `Object.keys(frequency)`: array-index keys in
ascending numeric order first, then the remaining keys in insertion order
(ECMAScript OrdinaryOwnPropertyKeys). -/
def jsObjectKeys (xs : List ℚ) : List ℚ :=
  List.insertionSort (· ≤ ·) ((keysInOrder xs).filter fun v => isArrayIndex v) ++
    (keysInOrder xs).filter fun v => ! isArrayIndex v

/-- Embedding of Statistics.mode:
`if (numbers.length === 0) return []`, build the frequency table, take
`maxFreq = Math.max(...Object.values(frequency))`, and return the keys whose
count equals maxFreq, in Object.keys enumeration order, mapped back to
numbers. -/
def mode (xs : List ℚ) : List ℚ :=
  if xs.length = 0 then []
  else
    (jsObjectKeys xs).filter fun k =>
      xs.count k = ((jsObjectKeys xs).map fun k2 => xs.count k2).foldl max 0

end Statistics

namespace Matrix

/-- A JavaScript number[][] value: a list of rows of JavaScript values. -/
abbrev Mat := List (List JsVal)

/-- JavaScript array indexing m[i][j]; a missing slot reads as undefined. -/
def getE (m : Mat) (i j : Nat) : JsVal := (m.getD i []).getD j .undefined

/-- A matrix is rectangular with r rows and c columns. -/
def IsRect (m : Mat) (r c : Nat) : Prop :=
  m.length = r ∧ ∀ row ∈ m, row.length = c

instance (m : Mat) (r c : Nat) : Decidable (IsRect m r c) :=
  decidable_of_iff (m.length = r ∧ ∀ row ∈ m, row.length = c) Iff.rfl

/-- Embedding of Matrix.zeros:
`Array(rows).fill().map(() => Array(cols).fill(0))`. -/
def zeros (rows cols : Nat) : Mat :=
  List.replicate rows (List.replicate cols (.num 0))

/-- Embedding of Matrix.identity: zeros(size, size) with the loop
`for (let i = 0; i < size; i++) matrix[i][i] = 1` setting each diagonal
entry. -/
def identity (size : Nat) : Mat :=
  (zeros size size).mapIdx fun i row => row.set i (.num 1)

/-- Embedding of Matrix.add.  The guard evaluates
`a.length !== b.length || a[0].length !== b[0].length` with JavaScript
short-circuiting: unequal row counts throw the dimension error; with equal
row counts, reading `a[0].length` (or `b[0].length`) of an empty matrix
throws a TypeError; otherwise unequal first-row lengths throw the dimension
error.  The result is `a.map((row, i) => row.map((val, j) => val + b[i][j]))`. -/
def add (a b : Mat) : Except JsErr Mat :=
  if a.length ≠ b.length then .error .dimensionMismatch
  else if a = [] then .error .typeError
  else if (a.getD 0 []).length ≠ (b.getD 0 []).length then .error .dimensionMismatch
  else .ok (a.mapIdx fun i row => row.mapIdx fun j v => jvAdd v (getE b i j))

/-- Embedding of Matrix.multiply.  Reading `a[0].length` of an empty a throws
a TypeError; a column/row mismatch throws the dimension error; then
`this.zeros(a.length, b[0].length)` reads `b[0].length`, a TypeError when b
is empty; otherwise the triple loop accumulates
`result[i][j] += a[i][k] * b[k][j]` over k < b.length starting from the zero
entry. -/
def multiply (a b : Mat) : Except JsErr Mat :=
  if a = [] then .error .typeError
  else if (a.getD 0 []).length ≠ b.length then .error .dimensionMismatch
  else if b = [] then .error .typeError
  else
    .ok ((List.range a.length).map fun i =>
      (List.range (b.getD 0 []).length).map fun j =>
        (List.range b.length).foldl
          (fun acc k => jvAdd acc (jvMul (getE a i k) (getE b k j))) (.num 0))

/-- Embedding of Matrix.transpose:
`matrix[0].map((_, colIndex) => matrix.map(row => row[colIndex]))`.
Reading `matrix[0].map` of a zero-row matrix throws a TypeError. -/
def transpose (m : Mat) : Except JsErr Mat :=
  if m = [] then .error .typeError
  else .ok ((List.range (m.getD 0 []).length).map fun j =>
    m.map fun row => row.getD j .undefined)

end Matrix

namespace NumberTheory

/-- Magnitude of the truncated remainder: the absolute value of a JavaScript
remainder is the Nat remainder of the absolute values. -/
theorem natAbs_tmod (a b : Int) : (Int.tmod a b).natAbs = a.natAbs % b.natAbs := by
  cases a <;> cases b <;> simp only [Int.tmod, Int.natAbs_neg] <;> rfl

/-- The truncated remainder by a nonzero divisor is strictly smaller in
magnitude than the divisor. -/
theorem natAbs_tmod_lt (a : Int) {b : Int} (h : b ≠ 0) :
    (Int.tmod a b).natAbs < b.natAbs := by
  rw [natAbs_tmod]
  exact Nat.mod_lt _ (Int.natAbs_pos.mpr h)

/-- Base case of the gcd recursion. -/
theorem gcd_zero (a : Int) : gcd a 0 = a := by
  rw [gcd]
  simp

/-- Recursive case of the gcd recursion. -/
theorem gcd_rec (a b : Int) (h : b ≠ 0) : gcd a b = gcd b (Int.tmod a b) := by
  rw [gcd]
  simp [h]

/-- Any fuel exceeding the magnitude of b suffices for the gcd recursion to
reach its base case. -/
theorem gcdFuel_eq (f : Nat) (a b : Int) (hf : b.natAbs < f) :
    gcdFuel f a b = some (gcd a b) := by
  induction f generalizing a b with
  | zero => omega
  | succ f ih =>
    by_cases hb : b = 0
    · subst hb
      simp [gcdFuel, gcd_zero]
    · rw [gcdFuel, if_neg hb, gcd_rec a b hb]
      exact ih b (Int.tmod a b) (by have := natAbs_tmod_lt a hb; omega)

/-- The value computed by the embedded gcd divides both arguments. -/
theorem gcd_dvd (a b : Int) : gcd a b ∣ a ∧ gcd a b ∣ b := by
  have H : ∀ n : Nat, ∀ a b : Int, b.natAbs = n → gcd a b ∣ a ∧ gcd a b ∣ b := by
    intro n
    induction n using Nat.strong_induction_on with
    | _ n ih =>
      intro a b hn
      by_cases hb : b = 0
      · subst hb
        rw [gcd_zero]
        exact ⟨dvd_refl a, dvd_zero a⟩
      · rw [gcd_rec a b hb]
        obtain ⟨h1, h2⟩ :=
          ih (Int.tmod a b).natAbs (hn ▸ natAbs_tmod_lt a hb) b (Int.tmod a b) rfl
        refine ⟨?_, h1⟩
        have hsum := Int.tmod_add_tdiv a b
        calc gcd b (Int.tmod a b) ∣ Int.tmod a b + b * a.tdiv b :=
              dvd_add h2 (h1.mul_right _)
          _ = a := hsum
  exact H b.natAbs a b rfl

/-- The embedded gcd is nonzero unless both arguments are zero. -/
theorem gcd_ne_zero (a b : Int) (h : ¬(a = 0 ∧ b = 0)) : gcd a b ≠ 0 := by
  have H : ∀ n : Nat, ∀ a b : Int, b.natAbs = n → ¬(a = 0 ∧ b = 0) → gcd a b ≠ 0 := by
    intro n
    induction n using Nat.strong_induction_on with
    | _ n ih =>
      intro a b hn hab
      by_cases hb : b = 0
      · subst hb
        rw [gcd_zero]
        exact fun h0 => hab ⟨h0, rfl⟩
      · rw [gcd_rec a b hb]
        exact ih (Int.tmod a b).natAbs (hn ▸ natAbs_tmod_lt a hb) b (Int.tmod a b) rfl
          (fun hc => hb hc.1)
  exact H b.natAbs a b rfl h

/-- With both arguments negative the result can be negative: the source
applies no sign normalization. -/
theorem gcd_neg_example : gcd (-4) (-6) = -2 := by
  have e1 : Int.tmod (-4) (-6) = -4 := by decide
  have e2 : Int.tmod (-6) (-4) = -2 := by decide
  have e3 : Int.tmod (-4) (-2) = 0 := by decide
  rw [gcd_rec _ _ (by norm_num), e1, gcd_rec _ _ (by norm_num), e2,
    gcd_rec _ _ (by norm_num), e3, gcd_zero]

/-- The factorial embedding throws the domain error exactly on negative
input. -/
theorem factorial_neg {n : Int} (h : n < 0) :
    factorial n = .error .domainError := by
  rw [factorial]
  simp [h]

/-- On non-negative input the factorial embedding returns the mathematical
factorial. -/
theorem factorial_nonneg : ∀ n : Int, 0 ≤ n → factorial n = .ok (n.toNat.factorial : Int) := by
  have H : ∀ m : Nat, ∀ n : Int, n.toNat = m → 0 ≤ n →
      factorial n = .ok (n.toNat.factorial : Int) := by
    intro m
    induction m using Nat.strong_induction_on with
    | _ m ih =>
      intro n hm hn
      rw [factorial]
      by_cases h01 : n = 0 ∨ n = 1
      · rcases h01 with h0 | h1
        · subst h0; simp [Nat.factorial]
        · subst h1; simp [Nat.factorial]
      · have h2 : 2 ≤ n := by omega
        have hrec := ih (n - 1).toNat (by omega) (n - 1) rfl (by omega)
        rw [dif_neg (by omega : ¬ n < 0), dif_neg h01, hrec]
        have hfac : (n.toNat.factorial : Int) = n * ((n - 1).toNat.factorial : Int) := by
          have hsucc : n.toNat = (n - 1).toNat + 1 := by omega
          rw [hsucc, Nat.factorial_succ]
          push_cast
          have : ((n - 1).toNat : Int) + 1 = n := by omega
          rw [this]
        rw [hfac]
        rfl
  exact fun n hn => H n.toNat n rfl hn

/-- Primes are never caught by the trial-division loop. -/
theorem isPrimeLoop_of_prime (n : Nat) (hp : Nat.Prime n) :
    ∀ i : Nat, 5 ≤ i → isPrimeLoop n i = true := by
  have H : ∀ k : Nat, ∀ i : Nat, n + 1 - i = k → 5 ≤ i → isPrimeLoop n i = true := by
    intro k
    induction k using Nat.strong_induction_on with
    | _ k ih =>
      intro i hk hi
      rw [isPrimeLoop]
      by_cases hle : i * i ≤ n
      · rw [dif_pos hle]
        have hii : i ≤ n := le_trans (Nat.le_mul_of_pos_left i (by omega)) hle
        have hno : ¬ (n % i = 0 ∨ n % (i + 2) = 0) := by
          rintro (hdiv | hdiv)
          · rcases hp.eq_one_or_self_of_dvd i (Nat.dvd_of_mod_eq_zero hdiv) with h1 | h1
            · omega
            · have : 5 * i ≤ i * i := Nat.mul_le_mul_right i (by omega)
              omega
          · rcases hp.eq_one_or_self_of_dvd (i + 2) (Nat.dvd_of_mod_eq_zero hdiv) with h1 | h1
            · omega
            · have : 5 * i ≤ i * i := Nat.mul_le_mul_right i (by omega)
              omega
        rw [if_neg hno]
        exact ih (n + 1 - (i + 6)) (by omega) (i + 6) rfl (by omega)
      · rw [dif_neg hle]
  exact fun i hi => H (n + 1 - i) i rfl hi

/-- If n has a divisor m congruent to 1 or 5 mod 6 with i <= m and
m * m <= n, the loop starting at i (i congruent to 5 mod 6) finds a divisor
and returns false. -/
theorem isPrimeLoop_false (n : Nat) :
    ∀ i : Nat, 5 ≤ i → i % 6 = 5 →
      ∀ m : Nat, i ≤ m → m * m ≤ n → m ∣ n → (m % 6 = 5 ∨ m % 6 = 1) →
        isPrimeLoop n i = false := by
  have H : ∀ k : Nat, ∀ i : Nat, n + 1 - i = k → 5 ≤ i → i % 6 = 5 →
      ∀ m : Nat, i ≤ m → m * m ≤ n → m ∣ n → (m % 6 = 5 ∨ m % 6 = 1) →
        isPrimeLoop n i = false := by
    intro k
    induction k using Nat.strong_induction_on with
    | _ k ih =>
      intro i hk hi5 hi6 m him hm2 hmdvd hm6
      have hle : i * i ≤ n := le_trans (Nat.mul_le_mul him him) hm2
      rw [isPrimeLoop, dif_pos hle]
      by_cases hdiv : n % i = 0 ∨ n % (i + 2) = 0
      · rw [if_pos hdiv]
      · rw [if_neg hdiv]
        have hmi : m ≠ i := fun h => hdiv (Or.inl (h ▸ Nat.mod_eq_zero_of_dvd hmdvd))
        have hmi2 : m ≠ i + 2 := fun h => hdiv (Or.inr (h ▸ Nat.mod_eq_zero_of_dvd hmdvd))
        have hii : i ≤ n := le_trans (Nat.le_mul_of_pos_left i (by omega)) hle
        have hm6' : i + 6 ≤ m := by rcases hm6 with h | h <;> omega
        exact ih (n + 1 - (i + 6)) (by omega) (i + 6) rfl (by omega) (by omega)
          m hm6' hm2 hmdvd hm6
  exact fun i hi5 hi6 m him hm2 hmdvd hm6 => H (n + 1 - i) i rfl hi5 hi6 m him hm2 hmdvd hm6

/-- The isPrime embedding decides primality on the naturals. -/
theorem isPrime_iff (n : Nat) : isPrime n = true ↔ Nat.Prime n := by
  unfold isPrime
  by_cases h1 : n ≤ 1
  · rw [if_pos h1]
    constructor
    · intro h; simp at h
    · intro hp; exact absurd hp.two_le (by omega)
  · rw [if_neg h1]
    by_cases h3 : n ≤ 3
    · rw [if_pos h3]
      have h23 : n = 2 ∨ n = 3 := by omega
      rcases h23 with h | h <;> subst h
      · simpa using Nat.prime_two
      · simpa using Nat.prime_three
    · rw [if_neg h3]
      by_cases h23 : n % 2 = 0 ∨ n % 3 = 0
      · rw [if_pos h23]
        constructor
        · intro h; simp at h
        · intro hp
          rcases h23 with h | h
          · rcases hp.eq_one_or_self_of_dvd 2 (Nat.dvd_of_mod_eq_zero h) with h2 | h2 <;> omega
          · rcases hp.eq_one_or_self_of_dvd 3 (Nat.dvd_of_mod_eq_zero h) with h2 | h2 <;> omega
      · rw [if_neg h23]
        push_neg at h23
        constructor
        · intro hloop
          by_contra hnp
          have hne1 : n ≠ 1 := by omega
          have hp := Nat.minFac_prime hne1
          have hdvd := Nat.minFac_dvd n
          have hsq : n.minFac ^ 2 ≤ n := Nat.minFac_sq_le_self (by omega) hnp
          have hsq' : n.minFac * n.minFac ≤ n := by rw [pow_two] at hsq; exact hsq
          have hmod2 : n.minFac % 2 ≠ 0 := by
            intro h
            rcases hp.eq_one_or_self_of_dvd 2 (Nat.dvd_of_mod_eq_zero h) with h2 | h2
            · omega
            · exact h23.1 (Nat.mod_eq_zero_of_dvd (h2.symm ▸ hdvd))
          have hmod3 : n.minFac % 3 ≠ 0 := by
            intro h
            rcases hp.eq_one_or_self_of_dvd 3 (Nat.dvd_of_mod_eq_zero h) with h2 | h2
            · omega
            · exact h23.2 (Nat.mod_eq_zero_of_dvd (h2.symm ▸ hdvd))
          have hge2 := hp.two_le
          have hge5 : 5 ≤ n.minFac := by omega
          have hm6 : n.minFac % 6 = 5 ∨ n.minFac % 6 = 1 := by omega
          have hfalse := isPrimeLoop_false n 5 (le_refl 5) rfl n.minFac hge5
            hsq' hdvd hm6
          rw [hloop] at hfalse
          simp at hfalse
        · intro hp
          exact isPrimeLoop_of_prime n hp 5 (le_refl 5)

/-- The spec's naive trial-division reference also decides primality. -/
theorem naiveIsPrime_iff (n : Nat) : naiveIsPrime n = true ↔ Nat.Prime n := by
  unfold naiveIsPrime
  by_cases h1 : n ≤ 1
  · rw [if_pos h1]
    constructor
    · intro h; simp at h
    · intro hp; exact absurd hp.two_le (by omega)
  · rw [if_neg h1, List.all_eq_true]
    rw [Nat.prime_def_le_sqrt]
    constructor
    · intro h
      refine ⟨by omega, fun m hm2 hms hdvd => ?_⟩
      have hsq : 2 ≤ n.sqrt := le_trans hm2 hms
      have hmem : m ∈ List.range' 2 (n.sqrt - 1) := by
        rw [List.mem_range']
        exact ⟨m - 2, by omega, by omega⟩
      have hm := h m hmem
      rw [decide_eq_true_eq] at hm
      exact hm (Nat.mod_eq_zero_of_dvd hdvd)
    · rintro ⟨h2, h⟩ m hmem
      rw [List.mem_range'] at hmem
      obtain ⟨j, hj, hmj⟩ := hmem
      rw [decide_eq_true_eq]
      intro h0
      exact h m (by omega) (by omega) (Nat.dvd_of_mod_eq_zero h0)

end NumberTheory

namespace Statistics

/-- Folding addition of g-values equals the initial value plus the list sum
of the g-values. -/
theorem foldl_add_map (xs : List ℚ) (g : ℚ → ℚ) (c : ℚ) :
    xs.foldl (fun acc x => acc + g x) c = c + (xs.map g).sum := by
  induction xs generalizing c with
  | nil => simp
  | cons x t ih => simp [ih, add_assoc]

/-- The reduce-based sum is the list sum. -/
theorem sumList_eq (xs : List ℚ) : xs.foldl (· + ·) 0 = xs.sum := by
  have h := foldl_add_map xs id 0
  simpa using h

/-- Sum of a constant list. -/
theorem sum_const_of_all_eq (xs : List ℚ) (a : ℚ) (h : ∀ x ∈ xs, x = a) :
    xs.sum = xs.length * a := by
  induction xs with
  | nil => simp
  | cons x t ih =>
    have hx := h x (by simp)
    have ht := ih fun y hy => h y (by simp [hy])
    rw [List.sum_cons, hx, ht, List.length_cons]
    push_cast
    ring

/-- A sum of non-negative rationals vanishes iff every term vanishes. -/
theorem sum_zero_iff_of_nonneg (xs : List ℚ) (h : ∀ x ∈ xs, 0 ≤ x) :
    xs.sum = 0 ↔ ∀ x ∈ xs, x = 0 := by
  induction xs with
  | nil => simp
  | cons x t ih =>
    have hx := h x (by simp)
    have ht : ∀ y ∈ t, 0 ≤ y := fun y hy => h y (by simp [hy])
    have hts : 0 ≤ t.sum := List.sum_nonneg ht
    constructor
    · intro h0
      rw [List.sum_cons] at h0
      have hx0 : x = 0 := by linarith
      have hts0 : t.sum = 0 := by linarith
      intro y hy
      rcases List.mem_cons.mp hy with rfl | hy2
      · exact hx0
      · exact (ih ht).mp hts0 y hy2
    · intro hall
      rw [List.sum_cons, hall x (by simp), (ih ht).mpr fun y hy => hall y (by simp [hy])]
      simp

/-- The accumulated variance as a sum of squared deviations. -/
theorem variance_eq (xs : List ℚ) :
    variance xs = ((xs.map fun x => (x - mean xs) ^ 2).sum) / (xs.length : ℚ) := by
  rw [variance, foldl_add_map]
  simp

/-- The population variance is non-negative. -/
theorem variance_nonneg (xs : List ℚ) : 0 ≤ variance xs := by
  rw [variance_eq]
  apply div_nonneg
  · apply List.sum_nonneg
    intro x hx
    obtain ⟨y, _, rfl⟩ := List.mem_map.mp hx
    positivity
  · positivity

/-- The mean of a non-empty constant list is that constant. -/
theorem mean_of_all_eq (xs : List ℚ) (a : ℚ) (hne : xs.length ≠ 0)
    (h : ∀ x ∈ xs, x = a) : mean xs = a := by
  have hcast : (xs.length : ℚ) ≠ 0 := Nat.cast_ne_zero.mpr hne
  rw [mean, if_neg hne, sumList, sumList_eq, sum_const_of_all_eq xs a h,
    mul_comm, mul_div_assoc, div_self hcast, mul_one]

/-- On non-empty input the standard deviation vanishes iff every element
equals the mean. -/
theorem sd_zero_iff (xs : List ℚ) (hne : xs.length ≠ 0) :
    standardDeviation xs = 0 ↔ ∀ x ∈ xs, x = mean xs := by
  rw [standardDeviation, if_neg hne, Real.sqrt_eq_zero']
  have hlen : (xs.length : ℚ) ≠ 0 := Nat.cast_ne_zero.mpr hne
  have hnn : ∀ y ∈ xs.map fun x => (x - mean xs) ^ 2, 0 ≤ y := by
    intro y hy
    obtain ⟨x, _, rfl⟩ := List.mem_map.mp hy
    positivity
  constructor
  · intro hle
    have hv : variance xs = 0 := by
      have h1 := variance_nonneg xs
      have h2 : ((variance xs : ℚ) : ℝ) = 0 := le_antisymm hle (by exact_mod_cast h1)
      exact_mod_cast h2
    rw [variance_eq] at hv
    rcases div_eq_zero_iff.mp hv with hsum | hzero
    · intro x hx
      have hx2 := (sum_zero_iff_of_nonneg _ hnn).mp hsum _ (List.mem_map_of_mem _ hx)
      have := (pow_eq_zero_iff two_ne_zero).mp hx2
      linarith [sub_eq_zero.mp this]
    · exact absurd hzero hlen
  · intro hall
    have hv : variance xs = 0 := by
      rw [variance_eq]
      have hsum : (xs.map fun x => (x - mean xs) ^ 2).sum = 0 := by
        apply (sum_zero_iff_of_nonneg _ hnn).mpr
        intro y hy
        obtain ⟨x, hx, rfl⟩ := List.mem_map.mp hy
        rw [hall x hx]
        ring
      rw [hsum, zero_div]
    rw [hv]
    norm_num

/-- Membership in the first-encounter key list. -/
theorem mem_keysInOrder (xs : List ℚ) (v : ℚ) : v ∈ keysInOrder xs ↔ v ∈ xs := by
  have H : ∀ (l acc : List ℚ) (v : ℚ),
      v ∈ l.foldl (fun acc x => if x ∈ acc then acc else acc ++ [x]) acc ↔
        v ∈ acc ∨ v ∈ l := by
    intro l
    induction l with
    | nil => intro acc v; simp
    | cons x t ih =>
      intro acc v
      simp only [List.foldl_cons]
      rw [ih]
      by_cases hx : x ∈ acc
      · rw [if_pos hx, List.mem_cons]
        constructor
        · rintro (h | h)
          · exact Or.inl h
          · exact Or.inr (Or.inr h)
        · rintro (h | rfl | h)
          · exact Or.inl h
          · exact Or.inl hx
          · exact Or.inr h
      · rw [if_neg hx]
        simp only [List.mem_append, List.mem_cons, List.mem_singleton]
        tauto
  rw [keysInOrder, H]
  simp

/-- Membership in the Object.keys enumeration order. -/
theorem mem_jsObjectKeys (xs : List ℚ) (v : ℚ) : v ∈ jsObjectKeys xs ↔ v ∈ xs := by
  rw [jsObjectKeys, List.mem_append, (List.perm_insertionSort (· ≤ ·) _).mem_iff,
    ← mem_keysInOrder xs v]
  cases hv : isArrayIndex v <;> simp [List.mem_filter, hv]

/-- The initial accumulator bounds a max fold from below. -/
theorem init_le_foldl_max (l : List Nat) (a : Nat) : a ≤ l.foldl max a := by
  induction l generalizing a with
  | nil => simp
  | cons y t ih => exact le_trans (le_max_left a y) (ih (max a y))

/-- Every list element bounds a max fold from below. -/
theorem le_foldl_max (l : List Nat) (a : Nat) : ∀ x ∈ l, x ≤ l.foldl max a := by
  induction l generalizing a with
  | nil => simp
  | cons y t ih =>
    intro x hx
    rcases List.mem_cons.mp hx with rfl | hx2
    · exact le_trans (le_max_right a x) (init_le_foldl_max t _)
    · exact ih (max a y) x hx2

/-- A max fold is either the initial accumulator or a list element. -/
theorem foldl_max_cases (l : List Nat) (a : Nat) :
    l.foldl max a = a ∨ l.foldl max a ∈ l := by
  induction l generalizing a with
  | nil => left; rfl
  | cons y t ih =>
    rw [List.foldl_cons]
    rcases ih (max a y) with h | h
    · by_cases hy : a ≤ y
      · right
        rw [h, max_eq_right hy]
        exact List.mem_cons_self y t
      · left
        rw [h, max_eq_left (le_of_not_le hy)]
    · right
      exact List.mem_cons_of_mem y h

/-- The values returned by mode are exactly those attaining the maximal
occurrence count. -/
theorem mode_mem_iff (xs : List ℚ) (v : ℚ) :
    v ∈ mode xs ↔ v ∈ xs ∧ ∀ w ∈ xs, xs.count w ≤ xs.count v := by
  by_cases h0 : xs.length = 0
  · have hnil : xs = [] := List.length_eq_zero.mp h0
    subst hnil
    simp [mode]
  · rw [mode, if_neg h0, List.mem_filter]
    constructor
    · rintro ⟨hvk, hveq⟩
      rw [decide_eq_true_eq] at hveq
      refine ⟨(mem_jsObjectKeys xs v).mp hvk, fun w hw => ?_⟩
      have hwk : w ∈ jsObjectKeys xs := (mem_jsObjectKeys xs w).mpr hw
      have hble := le_foldl_max ((jsObjectKeys xs).map fun k2 => xs.count k2) 0
        (xs.count w) (List.mem_map_of_mem _ hwk)
      omega
    · rintro ⟨hvx, hbound⟩
      have hvk : v ∈ jsObjectKeys xs := (mem_jsObjectKeys xs v).mpr hvx
      refine ⟨hvk, ?_⟩
      rw [decide_eq_true_eq]
      have hle := le_foldl_max ((jsObjectKeys xs).map fun k2 => xs.count k2) 0
        (xs.count v) (List.mem_map_of_mem _ hvk)
      have hge : ((jsObjectKeys xs).map fun k2 => xs.count k2).foldl max 0 ≤ xs.count v := by
        rcases foldl_max_cases ((jsObjectKeys xs).map fun k2 => xs.count k2) 0 with h | h
        · omega
        · obtain ⟨k, hk, hkeq⟩ := List.mem_map.mp h
          have hkx : k ∈ xs := (mem_jsObjectKeys xs k).mp hk
          have := hbound k hkx
          omega
      omega

/-- When every input value is an array-index key, mode output is in
ascending order. -/
theorem mode_sorted (xs : List ℚ) (h : ∀ x ∈ xs, isArrayIndex x = true) :
    List.Sorted (· ≤ ·) (mode xs) := by
  by_cases h0 : xs.length = 0
  · have hnil : xs = [] := List.length_eq_zero.mp h0
    subst hnil
    exact List.sorted_nil
  · rw [mode, if_neg h0]
    apply List.Pairwise.filter
    rw [jsObjectKeys]
    have hfil : (keysInOrder xs).filter (fun v => ! isArrayIndex v) = [] := by
      rw [List.filter_eq_nil_iff]
      intro a ha
      simp [h a ((mem_keysInOrder xs a).mp ha)]
    rw [hfil, List.append_nil]
    exact List.sorted_insertionSort (· ≤ ·) _

end Statistics

namespace Matrix

/-- Reading an in-range index of a map over List.range. -/
theorem getD_map_range {α : Type} (f : Nat → α) (n i : Nat) (h : i < n) (d : α) :
    ((List.range n).map f).getD i d = f i := by
  rw [List.getD_eq_getElem _ _ (by simpa using h)]
  simp

/-- Reading an in-range index of a mapped list. -/
theorem getD_map {α β : Type} (g : α → β) (l : List α) (i : Nat) (h : i < l.length)
    (d : β) (d2 : α) :
    (l.map g).getD i d = g (l.getD i d2) := by
  rw [List.getD_eq_getElem _ _ (by simpa using h), List.getD_eq_getElem _ _ h]
  simp

/-- Row lengths of a rectangular matrix. -/
theorem IsRect.row_len {m : Mat} {r c : Nat} (h : IsRect m r c) {i : Nat} (hi : i < r) :
    (m.getD i []).length = c := by
  have hlen : i < m.length := by rw [h.1]; exact hi
  rw [List.getD_eq_getElem _ _ hlen]
  exact h.2 _ (List.getElem_mem hlen)

/-- The identity matrix is rectangular of its size. -/
theorem identity_isRect (n : Nat) : IsRect (identity n) n n := by
  constructor
  · simp [identity, zeros]
  · intro row hrow
    rw [List.mem_iff_getElem] at hrow
    obtain ⟨i, hi, hrow⟩ := hrow
    rw [← hrow]
    simp [identity, zeros, List.getElem_mapIdx]

/-- Entries of the identity matrix. -/
theorem identity_getE {n i k : Nat} (hi : i < n) (hk : k < n) :
    getE (identity n) i k = .num (if i = k then 1 else 0) := by
  rw [getE]
  have h1 : i < (identity n).length := by simp [identity, zeros, hi]
  rw [List.getD_eq_getElem _ _ h1]
  simp only [identity, List.getElem_mapIdx, zeros, List.getElem_replicate]
  have h2 : k < ((List.replicate n (JsVal.num 0)).set i (JsVal.num 1)).length := by
    simp [hk]
  rw [List.getD_eq_getElem _ _ h2, List.getElem_set]
  by_cases h : i = k <;> simp [h]

/-- Folding JavaScript addition over numeric terms is numeric summation. -/
theorem foldl_jvAdd_num (l : List Nat) (term : Nat → JsVal) (g : Nat → ℚ)
    (h : ∀ k ∈ l, term k = .num (g k)) :
    ∀ c : ℚ, l.foldl (fun acc k => jvAdd acc (term k)) (.num c) = .num (c + (l.map g).sum) := by
  induction l with
  | nil => intro c; simp
  | cons k t ih =>
    intro c
    rw [List.foldl_cons, h k (by simp),
      show jvAdd (JsVal.num c) (JsVal.num (g k)) = JsVal.num (c + g k) from rfl,
      ih (fun x hx => h x (by simp [hx])) (c + g k), List.map_cons, List.sum_cons]
    congr 1
    ring

/-- Kronecker delta sums over a range. -/
theorem sum_range_delta (g : Nat → ℚ) :
    ∀ n i : Nat, i < n →
      (((List.range n).map fun k => (if i = k then (1 : ℚ) else 0) * g k).sum) = g i := by
  intro n
  induction n with
  | zero => intro i h; omega
  | succ n ih =>
    intro i hi
    rw [List.range_succ, List.map_append, List.sum_append]
    by_cases h : i = n
    · subst h
      have hpre : ((List.range i).map fun k => (if i = k then (1 : ℚ) else 0) * g k).sum = 0 := by
        apply List.sum_eq_zero
        intro x hx
        obtain ⟨k, hk, rfl⟩ := List.mem_map.mp hx
        rw [if_neg (by have := List.mem_range.mp hk; omega)]
        ring
      rw [hpre]
      simp
    · rw [ih i (by omega)]
      simp [h]

/-- Entry of the elementwise sum built by Matrix.add. -/
theorem add_entry (a b : Mat) (i j : Nat) (hi : i < a.length)
    (hj : j < (a.getD i []).length) :
    getE (a.mapIdx fun i2 row => row.mapIdx fun j2 v => jvAdd v (getE b i2 j2)) i j =
      jvAdd (getE a i j) (getE b i j) := by
  rw [getE]
  have h1 : i < (a.mapIdx fun i2 row => row.mapIdx fun j2 v => jvAdd v (getE b i2 j2)).length := by
    simpa using hi
  rw [List.getD_eq_getElem _ _ h1, List.getElem_mapIdx]
  have hj2 : j < (a[i]).length := by rwa [List.getD_eq_getElem _ _ hi] at hj
  have h2 : j < ((a[i]).mapIdx fun j2 v => jvAdd v (getE b i j2)).length := by simpa using hj2
  rw [List.getD_eq_getElem _ _ h2, List.getElem_mapIdx]
  rw [show getE a i j = (a[i])[j] from by
    rw [getE, List.getD_eq_getElem _ _ hi, List.getD_eq_getElem _ _ hj2]]

end Matrix

/-- C6: the Euclidean recursion gcd(a,0) = a, gcd(a,b) = gcd(b, a mod b)
(with the JavaScript truncated mod) terminates for every pair of integer
inputs, including negatives: fuel |b| + 1 always suffices for the recursion
to reach its base case. -/
theorem claim_C6 (a b : Int) :
    NumberTheory.gcdFuel (b.natAbs + 1) a b = some (NumberTheory.gcd a b) :=
  NumberTheory.gcdFuel_eq (b.natAbs + 1) a b (Nat.lt_succ_self _)

/-- C6 witness: the termination bound at the concrete negative pair
(-4, -6). -/
theorem claim_C6_witness :
    NumberTheory.gcdFuel ((-6 : Int).natAbs + 1) (-4) (-6) =
      some (NumberTheory.gcd (-4) (-6)) :=
  claim_C6 (-4) (-6)

/-- C10: for every pair of integers the gcd divides both arguments; it is
nonzero unless both arguments are zero; gcd(0,0) = 0; and no sign
normalization is applied, so the result can be negative: gcd(-4,-6) = -2. -/
theorem claim_C10 :
    (∀ a b : Int, (NumberTheory.gcd a b ∣ a ∧ NumberTheory.gcd a b ∣ b) ∧
      (¬(a = 0 ∧ b = 0) → NumberTheory.gcd a b ≠ 0)) ∧
    NumberTheory.gcd 0 0 = 0 ∧ NumberTheory.gcd (-4) (-6) = -2 :=
  ⟨fun a b => ⟨NumberTheory.gcd_dvd a b, NumberTheory.gcd_ne_zero a b⟩,
    NumberTheory.gcd_zero 0, NumberTheory.gcd_neg_example⟩

/-- C10 witness at the concrete pair (48, 18): the gcd divides both
arguments and is nonzero. -/
theorem claim_C10_witness :
    (NumberTheory.gcd 48 18 ∣ 48 ∧ NumberTheory.gcd 48 18 ∣ 18) ∧
      NumberTheory.gcd 48 18 ≠ 0 :=
  ⟨(claim_C10.1 48 18).1, (claim_C10.1 48 18).2 (by omega)⟩

/-- C5: factorial fails with the domain error exactly when n < 0 and returns
the product 1 * 2 * ... * n for n >= 0; factorial 5 = 120, factorial 0 = 1,
and factorial (-1) fails with the domain error. -/
theorem claim_C5 :
    (∀ n : Int, n < 0 → NumberTheory.factorial n = .error .domainError) ∧
    (∀ n : Int, 0 ≤ n → NumberTheory.factorial n = .ok (n.toNat.factorial : Int)) ∧
    NumberTheory.factorial 5 = .ok 120 ∧
    NumberTheory.factorial 0 = .ok 1 ∧
    NumberTheory.factorial (-1) = .error .domainError := by
  refine ⟨fun n h => NumberTheory.factorial_neg h,
    fun n h => NumberTheory.factorial_nonneg n h, ?_, ?_, ?_⟩
  · have h := NumberTheory.factorial_nonneg 5 (by norm_num)
    have h5 : (((5 : Int).toNat.factorial : Nat) : Int) = 120 := by decide
    rw [h, h5]
  · have h := NumberTheory.factorial_nonneg 0 (by norm_num)
    have h0 : (((0 : Int).toNat.factorial : Nat) : Int) = 1 := by decide
    rw [h, h0]
  · exact NumberTheory.factorial_neg (by norm_num)

/-- C5 witness: the factorial theorem applied at the concrete inputs -1 and
5, discharging the sign hypotheses there. -/
theorem claim_C5_witness :
    NumberTheory.factorial (-1) = .error .domainError ∧
      NumberTheory.factorial 5 = .ok ((5 : Int).toNat.factorial : Int) :=
  ⟨claim_C5.1 (-1) (by norm_num), claim_C5.2.1 5 (by norm_num)⟩

/-- C1 counterexample: lcm(0,0) does not raise: the call returns normally,
so in particular it does not fail with a ZeroDivisionError as the claim
states. -/
theorem claim_C1_counterexample : isError (NumberTheory.lcm 0 0) = false := rfl

/-- C1 amended: lcm(0,0) returns NaN (the result of the host division 0/0),
an undefined sentinel rather than a finite numeric value, and raises no
exception. -/
theorem claim_C1_amended : NumberTheory.lcm 0 0 = .ok .nan := by
  show Except.ok (jsDiv (((0 : Int) * 0).natAbs : ℚ) ((NumberTheory.gcd 0 0 : Int) : ℚ)) = _
  rw [NumberTheory.gcd_zero 0]
  norm_num [jsDiv]

/-- C4: for every n in [0, 10000], isPrime returns true iff n is prime, and
it agrees with the spec's naive trial-division reference. -/
theorem claim_C4 (n : Nat) (hn : n ≤ 10000) :
    (NumberTheory.isPrime n = true ↔ Nat.Prime n) ∧
      NumberTheory.isPrime n = NumberTheory.naiveIsPrime n := by
  refine ⟨NumberTheory.isPrime_iff n, ?_⟩
  by_cases hp : Nat.Prime n
  · rw [(NumberTheory.isPrime_iff n).mpr hp, (NumberTheory.naiveIsPrime_iff n).mpr hp]
  · have e1 : NumberTheory.isPrime n = false := by
      have h := fun h => hp ((NumberTheory.isPrime_iff n).mp h)
      simpa using h
    have e2 : NumberTheory.naiveIsPrime n = false := by
      have h := fun h => hp ((NumberTheory.naiveIsPrime_iff n).mp h)
      simpa using h
    rw [e1, e2]

/-- C4 witness at the concrete input 97. -/
theorem claim_C4_witness :
    (NumberTheory.isPrime 97 = true ↔ Nat.Prime 97) ∧
      NumberTheory.isPrime 97 = NumberTheory.naiveIsPrime 97 :=
  claim_C4 97 (by norm_num)

/-- C2 counterexample: for the zero-row matrices produced by zeros(0, 0),
add does not succeed: reading a[0].length of the empty array throws a
TypeError (not even a DimensionMismatchError). -/
theorem claim_C2_counterexample :
    Matrix.add (Matrix.zeros 0 0) (Matrix.zeros 0 0) = .error .typeError := rfl

/-- C2 amended: for rectangular matrices with the same dimensions and at
least one row (zero-row inputs instead throw a TypeError), add succeeds with
the entrywise sum; and add fails with a DimensionMismatchError whenever the
row counts differ, or the row counts agree, the matrices are non-empty and
the first-row lengths differ. -/
theorem claim_C2_amended :
    (∀ (a b : Matrix.Mat) (r c : Nat) (fa fb : Nat → Nat → ℚ), 1 ≤ r →
      Matrix.IsRect a r c → Matrix.IsRect b r c →
      (∀ i j, i < r → j < c → Matrix.getE a i j = .num (fa i j)) →
      (∀ i j, i < r → j < c → Matrix.getE b i j = .num (fb i j)) →
      ∃ R, Matrix.add a b = .ok R ∧ Matrix.IsRect R r c ∧
        ∀ i j, i < r → j < c → Matrix.getE R i j = .num (fa i j + fb i j)) ∧
    (∀ a b : Matrix.Mat, a.length ≠ b.length →
      Matrix.add a b = .error .dimensionMismatch) ∧
    (∀ a b : Matrix.Mat, a.length = b.length → a ≠ [] →
      (a.getD 0 []).length ≠ (b.getD 0 []).length →
      Matrix.add a b = .error .dimensionMismatch) := by
  refine ⟨?_, ?_, ?_⟩
  · intro a b r c fa fb hr ha hb hae hbe
    have hlen : a.length = b.length := by rw [ha.1, hb.1]
    have hanil : a ≠ [] := by
      intro h
      subst h
      have h0 := ha.1
      simp at h0
      omega
    have hcols : (a.getD 0 []).length = (b.getD 0 []).length := by
      rw [ha.row_len (show 0 < r by omega), hb.row_len (show 0 < r by omega)]
    rw [Matrix.add, if_neg (fun h => h hlen), if_neg hanil, if_neg (fun h => h hcols)]
    refine ⟨_, rfl, ⟨?_, ?_⟩, ?_⟩
    · simp [ha.1]
    · intro row hrow
      rw [List.mem_iff_getElem] at hrow
      obtain ⟨i, hi, hrow⟩ := hrow
      rw [← hrow]
      simp only [List.getElem_mapIdx, List.length_mapIdx]
      have hia : i < a.length := by simpa using hi
      exact ha.2 _ (List.getElem_mem hia)
    · intro i j hi hj
      have hia : i < a.length := by rw [ha.1]; exact hi
      have hja : j < (a.getD i []).length := by rw [ha.row_len hi]; exact hj
      rw [Matrix.add_entry a b i j hia hja, hae i j hi hj, hbe i j hi hj]
      rfl
  · intro a b h
    rw [Matrix.add, if_pos h]
  · intro a b h1 h2 h3
    rw [Matrix.add, if_neg (fun hc => hc h1), if_neg h2, if_pos h3]

/-- C2 witness: the amended theorem applied to the concrete 1 by 1 matrices
[[2]] and [[3]], all hypotheses discharged at that input. -/
theorem claim_C2_witness :
    ∃ R, Matrix.add [[JsVal.num 2]] [[JsVal.num 3]] = .ok R ∧ Matrix.IsRect R 1 1 ∧
      ∀ i j, i < 1 → j < 1 → Matrix.getE R i j = .num (2 + 3) :=
  claim_C2_amended.1 [[JsVal.num 2]] [[JsVal.num 3]] 1 1 (fun _ _ => 2) (fun _ _ => 3)
    (by norm_num) (by decide) (by decide)
    (fun i j hi hj => by
      have hi0 : i = 0 := by omega
      have hj0 : j = 0 := by omega
      subst hi0
      subst hj0
      rfl)
    (fun i j hi hj => by
      have hi0 : i = 0 := by omega
      have hj0 : j = 0 := by omega
      subst hi0
      subst hj0
      rfl)

/-- C3 counterexample: the rectangular matrix [[]] (one row, zero columns)
breaks the involution: transpose([[]]) is [], and transposing that throws a
TypeError reading matrix[0] of an empty array. -/
theorem claim_C3_counterexample :
    (Matrix.transpose [([] : List JsVal)]).bind Matrix.transpose = .error .typeError := rfl

/-- C3 amended: for every rectangular matrix with at least one row and at
least one column, transpose succeeds with the (cols x rows) matrix holding
T[j][i] = M[i][j], and transposing again returns the original matrix.
Zero-column matrices transpose to [], whose transpose throws a TypeError,
and zero-row matrices throw immediately. -/
theorem claim_C3_amended (M : Matrix.Mat) (r c : Nat) (hr : 1 ≤ r) (hc : 1 ≤ c)
    (hM : Matrix.IsRect M r c) :
    ∃ T, Matrix.transpose M = .ok T ∧ Matrix.IsRect T c r ∧
      (∀ j i, j < c → i < r → Matrix.getE T j i = Matrix.getE M i j) ∧
      Matrix.transpose T = .ok M := by
  have hMnil : M ≠ [] := by
    intro h
    subst h
    have h0 := hM.1
    simp at h0
    omega
  have hc0 : (M.getD 0 []).length = c := hM.row_len (by omega)
  rw [Matrix.transpose, if_neg hMnil, hc0]
  set T := (List.range c).map fun j => M.map fun row => row.getD j .undefined with hT
  have hTlen : T.length = c := by simp [hT]
  have hTrow : ∀ j, j < c → T.getD j [] = M.map fun row => row.getD j .undefined := by
    intro j hj
    rw [hT]
    exact Matrix.getD_map_range _ c j hj []
  have hTrect : Matrix.IsRect T c r := by
    refine ⟨hTlen, ?_⟩
    intro row hrow
    rw [hT, List.mem_map] at hrow
    obtain ⟨j, hj, hrow⟩ := hrow
    rw [← hrow]
    simp [hM.1]
  have hTE : ∀ j i, j < c → i < r → Matrix.getE T j i = Matrix.getE M i j := by
    intro j i hj hi
    have hiM : i < M.length := by rw [hM.1]; exact hi
    rw [Matrix.getE, hTrow j hj, Matrix.getD_map _ _ i hiM _ [], Matrix.getE]
  refine ⟨T, rfl, hTrect, hTE, ?_⟩
  have hTnil : T ≠ [] := by
    intro h
    rw [h] at hTlen
    simp at hTlen
    omega
  have hT0 : (T.getD 0 []).length = r := by
    rw [hTrow 0 (by omega)]
    simp [hM.1]
  rw [Matrix.transpose, if_neg hTnil, hT0]
  congr 1
  apply List.ext_getElem
  · simp [hM.1]
  · intro i h1 h2
    simp only [List.getElem_map, List.getElem_range]
    apply List.ext_getElem
    · simp [hTlen, hM.2 _ (List.getElem_mem h2)]
    · intro j h3 h4
      simp only [List.getElem_map]
      have hjc : j < c := by simpa [hTlen] using h3
      have hir : i < r := by simpa [hM.1] using h2
      have hjT : j < T.length := by rw [hTlen]; exact hjc
      have e1 : Matrix.getE T j i = (T[j]).getD i .undefined := by
        rw [Matrix.getE, List.getD_eq_getElem T [] hjT]
      rw [← e1, hTE j i hjc hir, Matrix.getE, List.getD_eq_getElem M [] h2,
        List.getD_eq_getElem _ _ h4]

/-- C3 witness: the amended theorem applied to the concrete 1 by 1 matrix
[[7]], its hypotheses discharged at that input. -/
theorem claim_C3_witness :
    ∃ T, Matrix.transpose [[JsVal.num 7]] = .ok T ∧ Matrix.IsRect T 1 1 ∧
      (∀ j i, j < 1 → i < 1 →
        Matrix.getE T j i = Matrix.getE [[JsVal.num 7]] i j) ∧
      Matrix.transpose T = .ok [[JsVal.num 7]] :=
  claim_C3_amended [[JsVal.num 7]] 1 1 (by norm_num) (by norm_num) (by decide)

/-- C7 counterexample: with n = 0 and the zero-row matrix M = [], the claim
fails: multiply(identity(0), []) throws a TypeError reading a[0] of the
empty identity matrix instead of returning []. -/
theorem claim_C7_counterexample :
    Matrix.multiply (Matrix.identity 0) ([] : Matrix.Mat) = .error .typeError := rfl

/-- C7 amended: for every n with 1 <= n and every rectangular numeric matrix
M with n rows, multiply(identity(n), M) = M; the case n = 0 instead throws a
TypeError. -/
theorem claim_C7_amended (n : Nat) (hn : 1 ≤ n) (M : Matrix.Mat) (c : Nat)
    (f : Nat → Nat → ℚ) (hM : Matrix.IsRect M n c)
    (hMe : ∀ i j, i < n → j < c → Matrix.getE M i j = .num (f i j)) :
    Matrix.multiply (Matrix.identity n) M = .ok M := by
  have hIr := Matrix.identity_isRect n
  have hInil : Matrix.identity n ≠ [] := by
    intro h
    rw [h] at hIr
    have h0 := hIr.1
    simp at h0
    omega
  have hMnil : M ≠ [] := by
    intro h
    subst h
    have h0 := hM.1
    simp at h0
    omega
  have hrow0 : ((Matrix.identity n).getD 0 []).length = n := hIr.row_len (by omega)
  have hMlen : M.length = n := hM.1
  have hMrow0 : (M.getD 0 []).length = c := hM.row_len (by omega)
  rw [Matrix.multiply, if_neg hInil,
    if_neg (show ¬ _ ≠ _ by rw [hrow0, hMlen]; exact fun h => h rfl), if_neg hMnil]
  congr 1
  have hIlen : (Matrix.identity n).length = n := hIr.1
  simp only [hIlen, hMrow0, hMlen]
  apply List.ext_getElem
  · simp [hMlen]
  · intro i h1 h2
    simp only [List.getElem_map, List.getElem_range]
    apply List.ext_getElem
    · simp [hM.2 _ (List.getElem_mem h2)]
    · intro j h3 h4
      simp only [List.getElem_map, List.getElem_range]
      have hir : i < n := by simpa using h1
      have hjc : j < c := by simpa using h3
      have hterm : ∀ k ∈ List.range n,
          jvMul (Matrix.getE (Matrix.identity n) i k) (Matrix.getE M k j) =
            JsVal.num ((if i = k then (1 : ℚ) else 0) * f k j) := by
        intro k hk
        have hkn : k < n := List.mem_range.mp hk
        rw [Matrix.identity_getE hir hkn, hMe k j hkn hjc]
        rfl
      rw [Matrix.foldl_jvAdd_num (List.range n)
        (fun k => jvMul (Matrix.getE (Matrix.identity n) i k) (Matrix.getE M k j))
        (fun k => (if i = k then (1 : ℚ) else 0) * f k j) hterm 0,
        Matrix.sum_range_delta (fun k => f k j) n i hir, zero_add]
      have hME := hMe i j hir hjc
      rw [Matrix.getE, List.getD_eq_getElem M [] h2, List.getD_eq_getElem _ _ h4] at hME
      exact hME.symm

/-- C7 witness: the amended theorem applied to n = 1 and the concrete matrix
[[7]], its hypotheses discharged at that input. -/
theorem claim_C7_witness :
    Matrix.multiply (Matrix.identity 1) [[JsVal.num 7]] = .ok [[JsVal.num 7]] :=
  claim_C7_amended 1 (by norm_num) [[JsVal.num 7]] 1 (fun _ _ => 7) (by decide)
    (fun i j hi hj => by
      have hi0 : i = 0 := by omega
      have hj0 : j = 0 := by omega
      subst hi0
      subst hj0
      rfl)

/-- C8: the standard deviation is non-negative for every input sequence, and
it is zero iff all elements of the sequence are equal (vacuously for the
empty sequence, whose standard deviation is the explicit zero default). -/
theorem claim_C8 (xs : List ℚ) :
    0 ≤ Statistics.standardDeviation xs ∧
      (Statistics.standardDeviation xs = 0 ↔ ∀ x ∈ xs, ∀ y ∈ xs, x = y) := by
  constructor
  · by_cases h : xs.length = 0
    · rw [Statistics.standardDeviation, if_pos h]
    · rw [Statistics.standardDeviation, if_neg h]
      exact Real.sqrt_nonneg _
  · by_cases h : xs.length = 0
    · have hnil : xs = [] := List.length_eq_zero.mp h
      subst hnil
      rw [Statistics.standardDeviation]
      simp
    · rw [Statistics.sd_zero_iff xs h]
      constructor
      · intro hall x hx y hy
        rw [hall x hx, hall y hy]
      · intro hall x hx
        have hne : xs ≠ [] := fun hn => h (by simp [hn])
        obtain ⟨a, t, rfl⟩ := List.exists_cons_of_ne_nil hne
        have hhead : ∀ y ∈ a :: t, y = a := fun y hy => hall y hy a (by simp)
        rw [hall x hx a (by simp)]
        exact (Statistics.mean_of_all_eq (a :: t) a h hhead).symm

/-- C8 witness: the theorem instantiated at the concrete sequence [1, 1]. -/
theorem claim_C8_witness :
    0 ≤ Statistics.standardDeviation [(1 : ℚ), 1] ∧
      (Statistics.standardDeviation [(1 : ℚ), 1] = 0 ↔
        ∀ x ∈ [(1 : ℚ), 1], ∀ y ∈ [(1 : ℚ), 1], x = y) :=
  claim_C8 [(1 : ℚ), 1]

/-- C9 counterexample: for the input [-1, 0] (both values tied at one
occurrence) the code returns [0, -1] because the key "0" is an array index
enumerated before the string key "-1"; this order is neither first-encounter
order nor ascending order, both of which are [-1, 0]. -/
theorem claim_C9_counterexample :
    Statistics.mode [-1, 0] = [0, -1] ∧
      decide (Statistics.mode [-1, 0] = [-1, 0]) = false := by
  constructor
  · decide
  · decide

/-- C9 amended: mode returns exactly the set of values whose occurrence
count is maximal (all tied modes), deterministically; the empty sequence
maps to the empty sequence and mode [1,2,2,3,4,4,4,5] = [4]; the output
order is the JavaScript object key enumeration order: array-index keys
(non-negative integers) ascending first, then the remaining keys in
first-encounter order — in particular, for sequences of non-negative
integers the output is in ascending order. -/
theorem claim_C9_amended :
    (∀ (xs : List ℚ) (v : ℚ), v ∈ Statistics.mode xs ↔
        v ∈ xs ∧ ∀ w ∈ xs, xs.count w ≤ xs.count v) ∧
      (∀ xs : List ℚ, (∀ x ∈ xs, Statistics.isArrayIndex x = true) →
        List.Sorted (· ≤ ·) (Statistics.mode xs)) ∧
      Statistics.mode [] = [] ∧
      Statistics.mode [1, 2, 2, 3, 4, 4, 4, 5] = [4] := by
  refine ⟨Statistics.mode_mem_iff, Statistics.mode_sorted, rfl, by decide⟩

/-- C9 witness: the membership characterization at the concrete input of the
spec's example, and sortedness at a concrete all-array-index input with the
hypothesis discharged by evaluation. -/
theorem claim_C9_witness :
    ((4 : ℚ) ∈ Statistics.mode [1, 2, 2, 3, 4, 4, 4, 5] ↔
      (4 : ℚ) ∈ ([1, 2, 2, 3, 4, 4, 4, 5] : List ℚ) ∧
        ∀ w ∈ ([1, 2, 2, 3, 4, 4, 4, 5] : List ℚ),
          ([1, 2, 2, 3, 4, 4, 4, 5] : List ℚ).count w ≤
            ([1, 2, 2, 3, 4, 4, 4, 5] : List ℚ).count 4) ∧
      List.Sorted (· ≤ ·) (Statistics.mode [3, 1, 2]) :=
  ⟨claim_C9_amended.1 [1, 2, 2, 3, 4, 4, 4, 5] 4,
    claim_C9_amended.2.1 [3, 1, 2] (by decide)⟩

end MathUtils
